import Mathlib

/-!
Shallow embedding of the symbol mapping/demapping core of `sionna/mapping.py`
(bit-label combinatorics, Gray-coded PAM/QAM constellation generation,
logit-to-LLR conversion, demapping), with proofs about the spec claims.

Tensor operations act elementwise over the batch axes, so a single batch
element is modelled.  Floating-point arithmetic is modelled over `ℝ`, and the
external tensor runtime's kernels (`tf.reduce_logsumexp`, `tf.reduce_max`,
`tf.math.log_sigmoid`, complex magnitude) are modelled by their mathematical
definitions, as the spec treats that runtime as an external collaborator.
-/

namespace Sionna

/-- Bit `k` (0-indexed from the MSB) of the width-`K` binary representation of
`i`: entry `a[i, k]` of the label array built with `np.binary_repr(i, K)` in
`SymbolLogits2LLRs.__init__` (and `LLRs2SymbolLogits`, `SymbolInds2Bits`). -/
def bitMSB (K i k : ℕ) : ℕ := i / 2 ^ (K - 1 - k) % 2

/-- The row `np.binary_repr(i, K)`: the width-`K` binary label of symbol `i`,
most significant bit first. -/
def binaryRepr (K i : ℕ) : List ℕ := (List.range K).map (bitMSB K i)

/-- Column `k` of the table `c0` built in `SymbolLogits2LLRs.__init__`:
`np.where(a[:,k]==0)[0]`, the ascending list of symbol indices whose `k`-th
label bit is 0. -/
def c0 (K k : ℕ) : List ℕ := (List.range (2 ^ K)).filter (fun i => bitMSB K i k = 0)

/-- Column `k` of the table `c1` built in `SymbolLogits2LLRs.__init__`:
`np.where(a[:,k]==1)[0]`, the ascending list of symbol indices whose `k`-th
label bit is 1. -/
def c1 (K k : ℕ) : List ℕ := (List.range (2 ^ K)).filter (fun i => bitMSB K i k = 1)

/-- The `method` argument of `SymbolLogits2LLRs` / `Demapper`. -/
inductive DemapMethod
  | app
  | maxlog

/-- `tf.reduce_max` over the gathered axis (a list of reals). -/
def maxList : List ℝ → ℝ
  | [] => 0
  | x :: xs => xs.foldl max x

/-- `tf.reduce_logsumexp` over the gathered axis: its mathematical value
`log (Σ exp)` (the kernel's running-max subtraction changes nothing in exact
arithmetic). -/
noncomputable def logsumexp (l : List ℝ) : ℝ := Real.log (l.map Real.exp).sum

/-- `self._reduce` in `SymbolLogits2LLRs.__init__`: `tf.reduce_logsumexp` for
"app", `tf.reduce_max` for "maxlog". -/
noncomputable def reduceM : DemapMethod → List ℝ → ℝ
  | DemapMethod.app => logsumexp
  | DemapMethod.maxlog => maxList

/-- `tf.math.log_sigmoid`. -/
noncomputable def logSigmoid (x : ℝ) : ℝ := Real.log (1 / (1 + Real.exp (-x)))

/-- `self._a = 2*a - 1`: the {-1,+1} signed label of bit `m` of symbol `i`. -/
def signedLabel (K i m : ℕ) : ℝ := 2 * (bitMSB K i m : ℝ) - 1

/-- `exp_ps` in `SymbolLogits2LLRs.call`:
`reduce_sum(log_sigmoid(a * prior), axis=-1)` for one batch element, i.e. the
log prior probability of symbol `i` under independent bit priors. -/
noncomputable def logPriorProb (K : ℕ) (prior : ℕ → ℝ) (i : ℕ) : ℝ :=
  ∑ m in Finset.range K, logSigmoid (signedLabel K i m * prior m)

/-- Modelled from the spec: `sionna.utils.hard_decisions` (its source file is
not under src/); per spec §4.4, hard decision thresholding at zero with the
convention "LLR ≥ 0 → bit 1". -/
noncomputable def hard_decisions (llr : ℝ) : ℝ := if 0 ≤ llr then 1 else 0

/-- `SymbolLogits2LLRs.call` for one batch element: `logits` is the trailing
`2^K`-sized axis, `prior` the per-bit prior LLRs (used when `with_prior`), and
the result is the output at bit position `k`. -/
noncomputable def symbolLogits2LLRs (method : DemapMethod) (K : ℕ)
    (hard_out with_prior : Bool) (logits prior : ℕ → ℝ) (k : ℕ) : ℝ :=
  let llr :=
    if with_prior then
      reduceM method ((c1 K k).map (fun i => logPriorProb K prior i + logits i))
        - reduceM method ((c0 K k).map (fun i => logPriorProb K prior i + logits i))
    else
      reduceM method ((c1 K k).map logits) - reduceM method ((c0 K k).map logits)
  if hard_out then hard_decisions llr else llr

/-- `SymbolLogits2LLRsWithPrior.call`: the deprecated wrapper's constructor
passes `hard_out=False, with_prior=True` to `SymbolLogits2LLRs.__init__`
regardless of its own `hard_out` argument (src lines 827-838), so its call is
the base call with those fixed flags. -/
noncomputable def symbolLogits2LLRsWithPrior (method : DemapMethod) (K : ℕ)
    (hard_out : Bool) (logits prior : ℕ → ℝ) (k : ℕ) : ℝ :=
  symbolLogits2LLRs method K false true logits prior k

/-- `pam_gray` (src lines 40-42); the `[]` case is unreachable in the source
(all call sites pass vectors of length ≥ 1). -/
def pam_gray : List ℤ → ℤ
  | [] => 1
  | [b] => 1 - 2 * b
  | b :: c :: rest => (1 - 2 * b) * (2 ^ (c :: rest).length - pam_gray (c :: rest))

/-- The numpy slice `b[0::2]`: every second entry, starting at index 0. -/
def evenStride {α : Type} : List α → List α
  | [] => []
  | [a] => [a]
  | a :: _ :: rest => a :: evenStride rest

/-- `self._binary_base = 2**range(K-1, -1, -1)` of `Mapper.__init__`, also the
`base` arrays of `QAM2PAM.__init__` / `PAM2QAM.__init__`. -/
def binaryBase (K : ℕ) : List ℕ := (List.range K).map (fun j => 2 ^ (K - 1 - j))

/-- `int_rep = reduce_sum(inputs_reshaped * binary_base)` in `Mapper.call`, for
one length-`K` bit group. -/
def intRep (K : ℕ) (bits : List ℕ) : ℕ := (List.zipWith (· * ·) bits (binaryBase K)).sum

/-- `SymbolInds2Bits.call`: row `i` of the `_bit_labels` table. -/
def symbolInds2Bits (K i : ℕ) : List ℕ := binaryRepr K i

/-- Real part of the unnormalized point `i` of `qam(K)`:
`pam_gray(b[0::2])` with `b = np.binary_repr(i, K)` (src line 100). -/
def qamRe (K i : ℕ) : ℤ := pam_gray ((evenStride (binaryRepr K i)).map (fun b => (b : ℤ)))

/-- Imaginary part of the unnormalized point `i` of `qam(K)`:
`pam_gray(b[1::2])` (src line 100). -/
def qamIm (K i : ℕ) : ℤ :=
  pam_gray ((evenStride ((binaryRepr K i).drop 1)).map (fun b => (b : ℤ)))

/-- `qam_var = 1/(2**(n-2)) * sum(linspace(1, 2**n-1, 2**(n-1))**2)` with
`n = K/2` (src lines 103-104); `n - 2` is evaluated over ℤ as in Python, and
`linspace(1, 2**n-1, 2**(n-1))` enumerates the odd numbers `2*i+1`. -/
noncomputable def qam_var (K : ℕ) : ℝ :=
  (1 / (2 : ℝ) ^ (((K / 2 : ℕ) : ℤ) - 2)) *
    ∑ i in Finset.range (2 ^ (K / 2 - 1)), (2 * (i : ℝ) + 1) ^ 2

/-- Point `i` of `qam(K, normalize)` (src lines 95-106). -/
noncomputable def qamPoint (K : ℕ) (normalize : Bool) (i : ℕ) : ℂ :=
  let p : ℂ := (qamRe K i : ℂ) + (qamIm K i : ℂ) * Complex.I
  if normalize then p / (Real.sqrt (qam_var K) : ℂ) else p

/-- The constellation array returned by `qam(K, normalize)`. -/
noncomputable def qamPoints (K : ℕ) (normalize : Bool) : List ℂ :=
  (List.range (2 ^ K)).map (qamPoint K normalize)

/-- `np.finfo(np.float32).tiny = 2⁻¹²⁶`: the `Demapper` clamp threshold
`_no_threshold` for the default `tf.complex64` dtype (src line 986). -/
noncomputable def tiny32 : ℝ := 1 / 2 ^ (126 : ℕ)

/-- The exponent tensor of `Demapper.call` (src lines 1004-1013):
`-|y - c_j|² / maximum(no, tiny)`, where `tiny` is the dtype's
`_no_threshold`. -/
noncomputable def demapperExponent (tiny : ℝ) (points : List ℂ) (y : ℂ) (no : ℝ)
    (j : ℕ) : ℝ :=
  -Complex.abs (y - points.getD j 0) ^ 2 / max no tiny

/-- `Demapper.call` without prior, for one received sample `y`: the exponents
are fed to `SymbolLogits2LLRs`; output at bit position `k`. -/
noncomputable def demapperLLR (method : DemapMethod) (K : ℕ) (tiny : ℝ)
    (points : List ℂ) (hard_out : Bool) (y : ℂ) (no : ℝ) (k : ℕ) : ℝ :=
  symbolLogits2LLRs method K hard_out false (demapperExponent tiny points y no)
    (fun _ => 0) k

/-- The exponent tensor of `SymbolDemapper.call` (src lines 1261-1267):
`-|y - c_j|² / no`.  Note: the source applies no clamping to `no` here. -/
noncomputable def symbolDemapperExponent (points : List ℂ) (y : ℂ) (no : ℝ)
    (j : ℕ) : ℝ :=
  -Complex.abs (y - points.getD j 0) ^ 2 / no

/-- `QAM2PAM.__init__`: `pam1_ind[i] = sum(b[0::2] * base)` with
`b = np.binary_repr(i, K)` and `base = 2**range(K//2-1, -1, -1)`
(src lines 1568-1579). -/
def qam2pam1 (K i : ℕ) : ℕ := intRep (K / 2) (evenStride (binaryRepr K i))

/-- `QAM2PAM.__init__`: `pam2_ind[i] = sum(b[1::2] * base)`
(src lines 1568-1579). -/
def qam2pam2 (K i : ℕ) : ℕ := intRep (K / 2) (evenStride ((binaryRepr K i).drop 1))

/-- Interleaving of two lists, first list at even positions and second list at
odd positions: the assignment `b[0::2] = b1; b[1::2] = b2` of
`PAM2QAM.__init__` (both labels there have length `K/2`). -/
def interleave {α : Type} : List α → List α → List α
  | [], ys => ys
  | xs, [] => xs
  | x :: xs, y :: ys => x :: y :: interleave xs ys

/-- `PAM2QAM` hard path (src lines 1618-1647): `qam_ind[i, j] = sum(b * base)`
where `b` interleaves the binary labels of the two PAM indices. -/
def pam2qam (K i j : ℕ) : ℕ :=
  intRep K (interleave (binaryRepr (K / 2) i) (binaryRepr (K / 2) j))

/-- Number of positions at which two equal-length bit vectors differ. -/
def diffCount (l₁ l₂ : List ℤ) : ℕ :=
  (List.zipWith (fun x y => if x = y then 0 else 1) l₁ l₂).sum

/-- All entries of the list are bits. -/
def isBinary (l : List ℤ) : Prop := ∀ x ∈ l, x = 0 ∨ x = 1

/-! ## Basic lemmas on the bit-label tables -/

theorem bitMSB_lt_two (K i k : ℕ) : bitMSB K i k < 2 := Nat.mod_lt _ (by norm_num)

theorem bitMSB_eq_one_iff_testBit (K i k : ℕ) :
    bitMSB K i k = 1 ↔ Nat.testBit i (K - 1 - k) = true := by
  rw [Nat.testBit_to_div_mod]
  simp [bitMSB]

theorem bitMSB_eq_zero_iff_testBit (K i k : ℕ) :
    bitMSB K i k = 0 ↔ Nat.testBit i (K - 1 - k) = false := by
  have h := bitMSB_lt_two K i k
  rw [← Bool.not_eq_true, ← bitMSB_eq_one_iff_testBit]
  omega

theorem c1_eq_testBit_filter (K k : ℕ) :
    c1 K k = (List.range (2 ^ K)).filter (fun i => Nat.testBit i (K - 1 - k)) := by
  unfold c1
  apply List.filter_congr
  intro i _
  simp [bitMSB_eq_one_iff_testBit]

theorem c0_eq_testBit_filter (K k : ℕ) :
    c0 K k = (List.range (2 ^ K)).filter (fun i => !Nat.testBit i (K - 1 - k)) := by
  unfold c0
  apply List.filter_congr
  intro i _
  simp [bitMSB_eq_zero_iff_testBit]

/-! ## C1, C2, C10: the logit-to-LLR engine -/

/-- C1: for every `num_bits_per_symbol` `K ≥ 1` and every logits tensor with
trailing dimension `2^K`, `SymbolLogits2LLRs` without prior returns, for each
bit position `k` (0-indexed from the MSB),
`LLR[k] = reduce(logits at one_indices[k]) - reduce(logits at zero_indices[k])`,
where `one_indices[k]`/`zero_indices[k]` are the symbol indices whose bit `k`
(MSB-first) is 1/0, and `reduce` is log-sum-exp when the method is "app" and
plain max when the method is "maxlog". -/
theorem C1_llr_without_prior (method : DemapMethod) (K : ℕ) (hK : 1 ≤ K)
    (logits : ℕ → ℝ) (k : ℕ) (hk : k < K) :
    symbolLogits2LLRs method K false false logits (fun _ => 0) k =
      reduceM method
          (((List.range (2 ^ K)).filter (fun i => Nat.testBit i (K - 1 - k))).map logits)
        - reduceM method
          (((List.range (2 ^ K)).filter (fun i => !Nat.testBit i (K - 1 - k))).map logits)
      ∧ reduceM DemapMethod.app = logsumexp
      ∧ reduceM DemapMethod.maxlog = maxList := by
  refine ⟨?_, rfl, rfl⟩
  simp only [symbolLogits2LLRs, Bool.false_eq_true, if_false,
    c1_eq_testBit_filter, c0_eq_testBit_filter]

/-- Witness for C1 at `method = app`, `K = 1`, `logits ≡ 0`, `k = 0`. -/
theorem C1_llr_without_prior_witness :
    1 ≤ 1 ∧ 0 < 1 ∧
    (symbolLogits2LLRs DemapMethod.app 1 false false (fun _ => (0 : ℝ)) (fun _ => 0) 0 =
      reduceM DemapMethod.app
          (((List.range (2 ^ 1)).filter (fun i => Nat.testBit i (1 - 1 - 0))).map
            (fun _ => (0 : ℝ)))
        - reduceM DemapMethod.app
          (((List.range (2 ^ 1)).filter (fun i => !Nat.testBit i (1 - 1 - 0))).map
            (fun _ => (0 : ℝ)))
      ∧ reduceM DemapMethod.app = logsumexp
      ∧ reduceM DemapMethod.maxlog = maxList) :=
  ⟨by decide, by decide,
    C1_llr_without_prior DemapMethod.app 1 (by decide) (fun _ => 0) 0 (by decide)⟩

/-- C2: for every `K ≥ 1`, with `with_prior` set and a bit-LLR prior `p`
supplied, `SymbolLogits2LLRs` first computes, for every symbol index `i`,
`log_prior_prob[i] = Σ_m log_sigmoid(signed_labels[i,m] * p[m])` with
`signed_labels[i,m] = 2*labels[i,m] - 1 ∈ {-1,+1}`, and then returns
`LLR[k] = reduce(log_prior_prob + logits over one_indices[k]) -
reduce(log_prior_prob + logits over zero_indices[k])`. -/
theorem C2_llr_with_prior (method : DemapMethod) (K : ℕ) (hK : 1 ≤ K)
    (logits prior : ℕ → ℝ) (k : ℕ) (hk : k < K) :
    (∀ i m : ℕ, signedLabel K i m = 2 * (bitMSB K i m : ℝ) - 1 ∧
      (signedLabel K i m = 1 ∨ signedLabel K i m = -1)) ∧
    (∀ i : ℕ, logPriorProb K prior i =
      ∑ m in Finset.range K, logSigmoid (signedLabel K i m * prior m)) ∧
    symbolLogits2LLRs method K false true logits prior k =
      reduceM method
          (((List.range (2 ^ K)).filter (fun i => Nat.testBit i (K - 1 - k))).map
            (fun i => logPriorProb K prior i + logits i))
        - reduceM method
          (((List.range (2 ^ K)).filter (fun i => !Nat.testBit i (K - 1 - k))).map
            (fun i => logPriorProb K prior i + logits i)) := by
  refine ⟨?_, fun i => rfl, ?_⟩
  · intro i m
    refine ⟨rfl, ?_⟩
    have h := bitMSB_lt_two K i m
    have h2 : bitMSB K i m = 0 ∨ bitMSB K i m = 1 := by omega
    rcases h2 with h2 | h2 <;> simp [signedLabel, h2] <;> norm_num
  · simp only [symbolLogits2LLRs, if_true, Bool.false_eq_true, if_false,
      c1_eq_testBit_filter, c0_eq_testBit_filter]

/-- Witness for C2 at `method = maxlog`, `K = 1`, `logits ≡ 0`, `prior ≡ 0`,
`k = 0`. -/
theorem C2_llr_with_prior_witness :
    1 ≤ 1 ∧ 0 < 1 ∧
    ((∀ i m : ℕ, signedLabel 1 i m = 2 * (bitMSB 1 i m : ℝ) - 1 ∧
      (signedLabel 1 i m = 1 ∨ signedLabel 1 i m = -1)) ∧
    (∀ i : ℕ, logPriorProb 1 (fun _ => 0) i =
      ∑ m in Finset.range 1, logSigmoid (signedLabel 1 i m * (fun _ => (0 : ℝ)) m)) ∧
    symbolLogits2LLRs DemapMethod.maxlog 1 false true (fun _ => 0) (fun _ => 0) 0 =
      reduceM DemapMethod.maxlog
          (((List.range (2 ^ 1)).filter (fun i => Nat.testBit i (1 - 1 - 0))).map
            (fun i => logPriorProb 1 (fun _ => 0) i + (fun _ => (0 : ℝ)) i))
        - reduceM DemapMethod.maxlog
          (((List.range (2 ^ 1)).filter (fun i => !Nat.testBit i (1 - 1 - 0))).map
            (fun i => logPriorProb 1 (fun _ => 0) i + (fun _ => (0 : ℝ)) i))) :=
  ⟨by decide, by decide,
    C2_llr_with_prior DemapMethod.maxlog 1 (by decide) (fun _ => 0) (fun _ => 0) 0 (by decide)⟩

/-- C10: for every method, every `K ≥ 1` and every caller-supplied `hard_out`
argument, the deprecated `SymbolLogits2LLRsWithPrior` wrapper computes exactly
the same function as `SymbolLogits2LLRs` with `with_prior=True` and
`hard_out=False`: the caller's `hard_out` is silently overridden and the
continuous LLR is always returned. -/
theorem C10_wrapper_override (method : DemapMethod) (K : ℕ) (hK : 1 ≤ K)
    (hard_out : Bool) (logits prior : ℕ → ℝ) (k : ℕ) :
    symbolLogits2LLRsWithPrior method K hard_out logits prior k =
      symbolLogits2LLRs method K false true logits prior k ∧
    symbolLogits2LLRsWithPrior method K hard_out logits prior k =
      reduceM method ((c1 K k).map (fun i => logPriorProb K prior i + logits i))
        - reduceM method ((c0 K k).map (fun i => logPriorProb K prior i + logits i)) := by
  constructor
  · rfl
  · simp [symbolLogits2LLRsWithPrior, symbolLogits2LLRs]

/-- Witness for C10 at `method = app`, `K = 1`, `hard_out = true`. -/
theorem C10_wrapper_override_witness :
    1 ≤ 1 ∧
    (symbolLogits2LLRsWithPrior DemapMethod.app 1 true (fun _ => 0) (fun _ => 0) 0 =
      symbolLogits2LLRs DemapMethod.app 1 false true (fun _ => 0) (fun _ => 0) 0 ∧
    symbolLogits2LLRsWithPrior DemapMethod.app 1 true (fun _ => 0) (fun _ => 0) 0 =
      reduceM DemapMethod.app
          ((c1 1 0).map (fun i => logPriorProb 1 (fun _ => 0) i + (fun _ => (0 : ℝ)) i))
        - reduceM DemapMethod.app
          ((c0 1 0).map (fun i => logPriorProb 1 (fun _ => 0) i + (fun _ => (0 : ℝ)) i))) :=
  ⟨by decide,
    C10_wrapper_override DemapMethod.app 1 (by decide) true (fun _ => 0) (fun _ => 0) 0⟩

/-! ## C3: the bit-partition invariant -/

theorem countP_range_eq_card_filter (n : ℕ) (p : ℕ → Bool) :
    (List.range n).countP p = ((Finset.range n).filter (fun i => p i = true)).card := by
  induction n with
  | zero => simp
  | succ n ih =>
    rw [List.range_succ, List.countP_append, Finset.range_succ, Finset.filter_insert]
    cases h : p n
    · simp [List.countP_cons, h, ih]
    · rw [if_pos rfl, Finset.card_insert_of_not_mem (by simp)]
      simp [List.countP_cons, h, ih]

theorem card_filter_testBit (K j : ℕ) (hj : j < K) :
    ((Finset.range (2 ^ K)).filter (fun i => Nat.testBit i j = true)).card = 2 ^ (K - 1) ∧
    ((Finset.range (2 ^ K)).filter (fun i => Nat.testBit i j = false)).card = 2 ^ (K - 1) := by
  have hpow : 2 ^ j < 2 ^ K := Nat.pow_lt_pow_right (by norm_num) hj
  have hbit : ∀ i, Nat.testBit (i ^^^ 2 ^ j) j = !Nat.testBit i j := by
    intro i
    rw [Nat.testBit_xor, Nat.testBit_two_pow_self]
    cases Nat.testBit i j
    · rfl
    · rfl
  have hcancel : ∀ i : ℕ, i ^^^ 2 ^ j ^^^ 2 ^ j = i := fun i => by
    rw [Nat.xor_assoc, Nat.xor_self, Nat.xor_zero]
  have hEq :
      ((Finset.range (2 ^ K)).filter (fun i => Nat.testBit i j = true)).card =
      ((Finset.range (2 ^ K)).filter (fun i => Nat.testBit i j = false)).card := by
    apply Finset.card_nbij' (fun i => i ^^^ 2 ^ j) (fun i => i ^^^ 2 ^ j)
    · intro a ha
      simp only [Finset.mem_filter, Finset.mem_range] at ha ⊢
      refine ⟨Nat.xor_lt_two_pow ha.1 hpow, ?_⟩
      rw [hbit, ha.2]
      rfl
    · intro a ha
      simp only [Finset.mem_filter, Finset.mem_range] at ha ⊢
      refine ⟨Nat.xor_lt_two_pow ha.1 hpow, ?_⟩
      rw [hbit, ha.2]
      rfl
    · intro a _
      exact hcancel a
    · intro a _
      exact hcancel a
  have hsplit :
      ((Finset.range (2 ^ K)).filter (fun i => Nat.testBit i j = true)).card +
      ((Finset.range (2 ^ K)).filter (fun i => ¬(Nat.testBit i j = true))).card =
      2 ^ K := by
    rw [Finset.filter_card_add_filter_neg_card_eq_card, Finset.card_range]
  have hneg :
      ((Finset.range (2 ^ K)).filter (fun i => ¬(Nat.testBit i j = true))).card =
      ((Finset.range (2 ^ K)).filter (fun i => Nat.testBit i j = false)).card := by
    congr 1
    apply Finset.filter_congr
    intro i _
    simp
  have hK1 : K - 1 + 1 = K := by omega
  have hKpos : 2 ^ (K - 1) + 2 ^ (K - 1) = 2 ^ K := by
    conv_rhs => rw [← hK1]
    rw [pow_succ]
    ring
  constructor
  · omega
  · omega

/-- C3: for every `K ≥ 1` and every bit position `k < K`, the precomputed
index partitions satisfy: `zero_indices[k]` and `one_indices[k]` are disjoint,
each contains exactly `2^(K-1)` symbol indices, their union is exactly
`{0, ..., 2^K - 1}`, and an index `i` lies in `one_indices[k]` exactly when
bit `k` of the MSB-first binary representation of `i` is 1. -/
theorem C3_index_partition (K k : ℕ) (hK : 1 ≤ K) (hk : k < K) :
    (∀ i, ¬(i ∈ c0 K k ∧ i ∈ c1 K k)) ∧
    (c0 K k).length = 2 ^ (K - 1) ∧
    (c1 K k).length = 2 ^ (K - 1) ∧
    (∀ i, (i ∈ c0 K k ∨ i ∈ c1 K k) ↔ i < 2 ^ K) ∧
    (∀ i, i ∈ c1 K k ↔ (i < 2 ^ K ∧ Nat.testBit i (K - 1 - k) = true)) := by
  have hj : K - 1 - k < K := by omega
  have hcard := card_filter_testBit K (K - 1 - k) hj
  have hmem0 : ∀ i, i ∈ c0 K k ↔ (i < 2 ^ K ∧ bitMSB K i k = 0) := by
    intro i
    simp [c0, List.mem_filter]
  have hmem1 : ∀ i, i ∈ c1 K k ↔ (i < 2 ^ K ∧ bitMSB K i k = 1) := by
    intro i
    simp [c1, List.mem_filter]
  refine ⟨?_, ?_, ?_, ?_, ?_⟩
  · intro i ⟨h0, h1⟩
    rw [hmem0] at h0
    rw [hmem1] at h1
    omega
  · rw [c0_eq_testBit_filter, ← List.countP_eq_length_filter,
      countP_range_eq_card_filter, ← hcard.2]
    congr 1
    apply Finset.filter_congr
    intro i _
    simp
  · rw [c1_eq_testBit_filter, ← List.countP_eq_length_filter,
      countP_range_eq_card_filter, ← hcard.1]
  · intro i
    rw [hmem0, hmem1]
    have := bitMSB_lt_two K i k
    constructor
    · rintro (h | h) <;> exact h.1
    · intro h
      rcases (show bitMSB K i k = 0 ∨ bitMSB K i k = 1 by omega) with h2 | h2
      · exact Or.inl ⟨h, h2⟩
      · exact Or.inr ⟨h, h2⟩
  · intro i
    rw [hmem1, bitMSB_eq_one_iff_testBit]

/-- Witness for C3 at `K = 2`, `k = 0`. -/
theorem C3_index_partition_witness :
    1 ≤ 2 ∧ 0 < 2 ∧
    ((∀ i, ¬(i ∈ c0 2 0 ∧ i ∈ c1 2 0)) ∧
    (c0 2 0).length = 2 ^ (2 - 1) ∧
    (c1 2 0).length = 2 ^ (2 - 1) ∧
    (∀ i, (i ∈ c0 2 0 ∨ i ∈ c1 2 0) ↔ i < 2 ^ 2) ∧
    (∀ i, i ∈ c1 2 0 ↔ (i < 2 ^ 2 ∧ Nat.testBit i (2 - 1 - 0) = true))) :=
  ⟨by decide, by decide, C3_index_partition 2 0 (by decide) (by decide)⟩

/-! ## C4: Mapper / SymbolInds2Bits round trip -/

theorem binaryBase_succ (K : ℕ) : binaryBase (K + 1) = 2 ^ K :: binaryBase K := by
  unfold binaryBase
  rw [List.range_succ_eq_map, List.map_cons, List.map_map]
  norm_num
  intro a _
  omega

theorem intRep_cons (K b : ℕ) (bs : List ℕ) :
    intRep (K + 1) (b :: bs) = b * 2 ^ K + intRep K bs := by
  simp [intRep, binaryBase_succ]

theorem intRep_lt : ∀ (bs : List ℕ), (∀ x ∈ bs, x < 2) →
    intRep bs.length bs < 2 ^ bs.length
  | [], _ => by simp [intRep, binaryBase]
  | b :: bs, h => by
    have hb : b < 2 := h b (by simp)
    have ih := intRep_lt bs (fun x hx => h x (by simp [hx]))
    rw [List.length_cons, intRep_cons]
    have h2 : b * 2 ^ bs.length ≤ 2 ^ bs.length := by
      calc b * 2 ^ bs.length ≤ 1 * 2 ^ bs.length := Nat.mul_le_mul_right _ (by omega)
        _ = 2 ^ bs.length := one_mul _
    rw [pow_succ]
    omega

theorem intRep_div_pow_mod : ∀ (bs : List ℕ), (∀ x ∈ bs, x < 2) →
    ∀ k, k < bs.length →
      intRep bs.length bs / 2 ^ (bs.length - 1 - k) % 2 = bs.getD k 0
  | [], _, k, hk => by simp at hk
  | b :: bs, h, 0, _ => by
    rw [List.length_cons, intRep_cons]
    have hr := intRep_lt bs (fun x hx => h x (by simp [hx]))
    rw [show bs.length + 1 - 1 - 0 = bs.length by omega]
    rw [Nat.add_comm, Nat.mul_comm]
    rw [Nat.add_mul_div_left _ _ (by positivity)]
    rw [Nat.div_eq_of_lt hr]
    simp [Nat.mod_eq_of_lt (h b (by simp))]
  | b :: bs, h, k + 1, hk => by
    rw [List.length_cons, intRep_cons]
    have hkL : k < bs.length := by
      simp only [List.length_cons] at hk
      omega
    have hexp : bs.length + 1 - 1 - (k + 1) = bs.length - 1 - k := by omega
    rw [hexp]
    have hsplit : (2 : ℕ) ^ bs.length = 2 ^ (bs.length - 1 - k) * 2 ^ (k + 1) := by
      rw [← pow_add]
      congr 1
      omega
    rw [hsplit]
    rw [show b * (2 ^ (bs.length - 1 - k) * 2 ^ (k + 1)) =
      b * 2 ^ (k + 1) * 2 ^ (bs.length - 1 - k) by ring]
    rw [Nat.add_comm, Nat.add_mul_div_right _ _ (by positivity)]
    rw [show b * 2 ^ (k + 1) = b * 2 ^ k * 2 by ring]
    rw [Nat.add_mul_mod_self_right]
    rw [intRep_div_pow_mod bs (fun x hx => h x (by simp [hx])) k hkL]
    simp

theorem binaryRepr_succ (K n : ℕ) :
    binaryRepr (K + 1) n = (n / 2 ^ K % 2) :: binaryRepr K n := by
  unfold binaryRepr bitMSB
  rw [List.range_succ_eq_map, List.map_cons, List.map_map]
  norm_num
  intro a _
  rw [show K - (a + 1) = K - 1 - a by omega]

theorem mod_two_pow_succ (K n : ℕ) :
    n % 2 ^ (K + 1) = 2 ^ K * (n / 2 ^ K % 2) + n % 2 ^ K := by
  have h1 := Nat.div_add_mod (n % 2 ^ (K + 1)) (2 ^ K)
  have h2 : n % 2 ^ (K + 1) / 2 ^ K = n / 2 ^ K % 2 := by
    rw [pow_succ]
    exact Nat.mod_mul_right_div_self n (2 ^ K) 2
  have h3 : n % 2 ^ (K + 1) % 2 ^ K = n % 2 ^ K :=
    Nat.mod_mod_of_dvd n ⟨2, by rw [pow_succ]⟩
  rw [h2, h3] at h1
  exact h1.symm

theorem intRep_binaryRepr_mod : ∀ (K n : ℕ), intRep K (binaryRepr K n) = n % 2 ^ K
  | 0, n => by simp [intRep, binaryRepr, binaryBase, Nat.mod_one]
  | K + 1, n => by
    rw [binaryRepr_succ, intRep_cons, intRep_binaryRepr_mod K n, mod_two_pow_succ]
    ring

theorem intRep_binaryRepr (K n : ℕ) (h : n < 2 ^ K) : intRep K (binaryRepr K n) = n := by
  rw [intRep_binaryRepr_mod, Nat.mod_eq_of_lt h]

theorem map_getD_range : ∀ (l : List ℕ),
    (List.range l.length).map (fun k => l.getD k 0) = l
  | [] => rfl
  | x :: l => by
    rw [List.length_cons, List.range_succ_eq_map, List.map_cons, List.map_map]
    norm_num
    conv_rhs => rw [← map_getD_range l]
    apply List.map_congr_left
    intro j _
    simp

theorem binaryRepr_intRep (bs : List ℕ) (h : ∀ x ∈ bs, x < 2) :
    binaryRepr bs.length (intRep bs.length bs) = bs := by
  unfold binaryRepr
  conv_rhs => rw [← map_getD_range bs]
  apply List.map_congr_left
  intro k hk
  rw [List.mem_range] at hk
  simp only [bitMSB]
  exact intRep_div_pow_mod bs h k hk

/-- C4: for every `K` in `{1..8}` and every length-`K` bit pattern, mapping the
bits with `Mapper` (integer index = MSB-first weighted sum of the bits) and
converting the index back with `SymbolInds2Bits` recovers the original bit
pattern. -/
theorem C4_mapper_roundtrip (K : ℕ) (hK1 : 1 ≤ K) (hK8 : K ≤ 8) (bits : List ℕ)
    (hlen : bits.length = K) (hb : ∀ b ∈ bits, b < 2) :
    symbolInds2Bits K (intRep K bits) = bits := by
  subst hlen
  exact binaryRepr_intRep bits hb

/-- Witness for C4 at `K = 3`, `bits = [1,0,1]`. -/
theorem C4_mapper_roundtrip_witness :
    1 ≤ 3 ∧ 3 ≤ 8 ∧ ([1, 0, 1] : List ℕ).length = 3 ∧
    (∀ b ∈ ([1, 0, 1] : List ℕ), b < 2) ∧
    symbolInds2Bits 3 (intRep 3 [1, 0, 1]) = [1, 0, 1] :=
  ⟨by decide, by decide, by decide, by decide,
    C4_mapper_roundtrip 3 (by decide) (by decide) [1, 0, 1] (by decide) (by decide)⟩

/-! ## C5: QAM2PAM / PAM2QAM round trip -/

theorem interleave_evenStride {α : Type} : ∀ (l : List α),
    interleave (evenStride l) (evenStride (l.drop 1)) = l
  | [] => rfl
  | [_] => rfl
  | [_, _] => rfl
  | a :: c :: d :: r => by
    have ih := interleave_evenStride (d :: r)
    simp only [evenStride, List.drop_succ_cons, List.drop_zero] at ih ⊢
    simp only [interleave] at ih ⊢
    simp [ih]

theorem evenStride_length {α : Type} : ∀ (l : List α),
    (evenStride l).length = (l.length + 1) / 2
  | [] => by norm_num [evenStride]
  | [_] => by norm_num [evenStride]
  | _ :: _ :: t => by
    have ih := evenStride_length t
    simp only [evenStride, List.length_cons]
    omega

theorem evenStride_mem {α : Type} : ∀ (l : List α) (x : α), x ∈ evenStride l → x ∈ l
  | [], x, h => by simp [evenStride] at h
  | [a], x, h => by simpa [evenStride] using h
  | a :: c :: t, x, h => by
    simp only [evenStride, List.mem_cons] at h ⊢
    rcases h with h | h
    · exact Or.inl h
    · exact Or.inr (Or.inr (evenStride_mem t x h))

theorem binaryRepr_length (K n : ℕ) : (binaryRepr K n).length = K := by
  simp [binaryRepr]

theorem binaryRepr_lt_two (K n : ℕ) : ∀ x ∈ binaryRepr K n, x < 2 := by
  intro x hx
  simp only [binaryRepr, List.mem_map] at hx
  obtain ⟨k, _, rfl⟩ := hx
  exact bitMSB_lt_two K n k

/-- C5: for every even `K ≥ 2` and every QAM symbol index `i < 2^K`, splitting
`i` with `QAM2PAM` into the two PAM component indices (even-position label bits
selecting the first, odd-position bits the second) and recombining them with
`PAM2QAM` in hard mode yields `i` again. -/
theorem C5_qam_pam_roundtrip (K : ℕ) (hK : 2 ≤ K) (heven : K % 2 = 0) (i : ℕ)
    (hi : i < 2 ^ K) :
    pam2qam K (qam2pam1 K i) (qam2pam2 K i) = i := by
  have hlen : (binaryRepr K i).length = K := binaryRepr_length K i
  have hbits : ∀ x ∈ binaryRepr K i, x < 2 := binaryRepr_lt_two K i
  have hev_len : (evenStride (binaryRepr K i)).length = K / 2 := by
    rw [evenStride_length, hlen]
    omega
  have hod_len : (evenStride ((binaryRepr K i).drop 1)).length = K / 2 := by
    rw [evenStride_length, List.length_drop, hlen]
    omega
  have hev_bits : ∀ x ∈ evenStride (binaryRepr K i), x < 2 := fun x hx =>
    hbits x (evenStride_mem _ x hx)
  have hod_bits : ∀ x ∈ evenStride ((binaryRepr K i).drop 1), x < 2 := fun x hx =>
    hbits x (List.mem_of_mem_drop (evenStride_mem _ x hx))
  have h1 : binaryRepr (K / 2) (qam2pam1 K i) = evenStride (binaryRepr K i) := by
    have h := binaryRepr_intRep (evenStride (binaryRepr K i)) hev_bits
    rw [hev_len] at h
    exact h
  have h2 : binaryRepr (K / 2) (qam2pam2 K i) = evenStride ((binaryRepr K i).drop 1) := by
    have h := binaryRepr_intRep (evenStride ((binaryRepr K i).drop 1)) hod_bits
    rw [hod_len] at h
    exact h
  unfold pam2qam
  rw [h1, h2, interleave_evenStride, intRep_binaryRepr K i hi]

/-- Witness for C5 at `K = 2`, `i = 3`. -/
theorem C5_qam_pam_roundtrip_witness :
    2 ≤ 2 ∧ 2 % 2 = 0 ∧ 3 < 2 ^ 2 ∧
    pam2qam 2 (qam2pam1 2 3) (qam2pam2 2 3) = 3 :=
  ⟨by decide, by decide, by decide,
    C5_qam_pam_roundtrip 2 (by decide) (by decide) 3 (by decide)⟩

/-! ## C6: pam_gray -/

theorem pam_gray_bounds : ∀ (l : List ℤ), l ≠ [] → isBinary l →
    Odd (pam_gray l) ∧ |pam_gray l| ≤ 2 ^ l.length - 1
  | [], h, _ => absurd rfl h
  | [b], _, hb => by
    rcases hb b (by simp) with h | h <;> subst h <;>
      refine ⟨by norm_num [pam_gray], by norm_num [pam_gray]⟩
  | b :: c :: t, _, hb => by
    have hbin : isBinary (c :: t) := fun x hx => hb x (by simp [hx])
    obtain ⟨hodd, habs⟩ := pam_gray_bounds (c :: t) (by simp) hbin
    have hpow : (0 : ℤ) < 2 ^ (c :: t).length := by positivity
    have heven : Even ((2 : ℤ) ^ (c :: t).length) := by
      rw [List.length_cons, pow_succ]
      exact even_two.mul_left _
    have hModd : Odd ((2 : ℤ) ^ (c :: t).length - pam_gray (c :: t)) :=
      Even.sub_odd heven hodd
    have h2 : (2 : ℤ) ^ (b :: c :: t).length = 2 * 2 ^ (c :: t).length := by
      rw [List.length_cons, pow_succ]
      ring
    rcases hb b (by simp) with h | h <;> subst h
    · have hval : pam_gray (0 :: c :: t) =
          2 ^ (c :: t).length - pam_gray (c :: t) := by
        simp [pam_gray]
      refine ⟨by rw [hval]; exact hModd, ?_⟩
      rw [hval]
      rw [abs_le] at habs ⊢
      constructor <;> [linarith [h2]; linarith [h2]]
    · have hval : pam_gray (1 :: c :: t) =
          -(2 ^ (c :: t).length - pam_gray (c :: t)) := by
        simp [pam_gray]
        try ring
      refine ⟨by rw [hval]; exact hModd.neg, ?_⟩
      rw [hval, abs_neg]
      rw [abs_le] at habs ⊢
      constructor <;> [linarith [h2]; linarith [h2]]

theorem pam_gray_inj : ∀ (l₁ l₂ : List ℤ), isBinary l₁ → isBinary l₂ →
    l₁.length = l₂.length → pam_gray l₁ = pam_gray l₂ → l₁ = l₂
  | [], [], _, _, _, _ => rfl
  | [], _ :: _, _, _, hlen, _ => by simp at hlen
  | _ :: _, [], _, _, hlen, _ => by simp at hlen
  | [b], [b'], h1, h2, _, heq => by
    rcases h1 b (by simp) with h | h <;> rcases h2 b' (by simp) with h' | h' <;>
      subst h <;> subst h' <;> first | rfl | (norm_num [pam_gray] at heq)
  | [b], b' :: c' :: t', _, _, hlen, _ => by
    simp at hlen
  | b :: c :: t, [b'], _, _, hlen, _ => by
    simp at hlen
  | b :: c :: t, b' :: c' :: t', h1, h2, hlen, heq => by
    have h1t : isBinary (c :: t) := fun x hx => h1 x (by simp [hx])
    have h2t : isBinary (c' :: t') := fun x hx => h2 x (by simp [hx])
    have hL : (c :: t).length = (c' :: t').length := by
      simp only [List.length_cons] at hlen ⊢
      omega
    obtain ⟨_, habs⟩ := pam_gray_bounds (c :: t) (by simp) h1t
    obtain ⟨_, habs'⟩ := pam_gray_bounds (c' :: t') (by simp) h2t
    rw [abs_le] at habs habs'
    have hpow : (0 : ℤ) < 2 ^ (c :: t).length := by positivity
    simp only [pam_gray] at heq
    rw [← hL] at heq habs'
    simp only [List.length_cons] at habs habs' hpow heq
    rcases h1 b (by simp) with h | h <;> rcases h2 b' (by simp) with h' | h' <;>
        subst h <;> subst h'
    · have htails : pam_gray (c :: t) = pam_gray (c' :: t') := by
        norm_num at heq
        linarith
      rw [pam_gray_inj (c :: t) (c' :: t') h1t h2t hL htails]
    · exfalso
      norm_num at heq
      linarith
    · exfalso
      norm_num at heq
      linarith
    · have htails : pam_gray (c :: t) = pam_gray (c' :: t') := by
        norm_num at heq
        linarith
      rw [pam_gray_inj (c :: t) (c' :: t') h1t h2t hL htails]

theorem pam_gray_surj : ∀ (n : ℕ) (v : ℤ), Odd v → |v| ≤ 2 ^ (n + 1) - 1 →
    ∃ l : List ℤ, l.length = n + 1 ∧ isBinary l ∧ pam_gray l = v
  | 0, v, hodd, habs => by
    rw [abs_le] at habs
    have hv2 : v % 2 = 1 := Int.odd_iff.mp hodd
    have hv : v = 1 ∨ v = -1 := by omega
    rcases hv with h | h <;> subst h
    · exact ⟨[0], by simp, by intro x hx; simp at hx; simp [hx], by norm_num [pam_gray]⟩
    · exact ⟨[1], by simp, by intro x hx; simp at hx; simp [hx], by norm_num [pam_gray]⟩
  | n + 1, v, hodd, habs => by
    rw [abs_le] at habs
    have hpow : (0 : ℤ) < 2 ^ (n + 1) := by positivity
    have h2 : (2 : ℤ) ^ (n + 1 + 1) = 2 * 2 ^ (n + 1) := by ring
    have hv2 : v % 2 = 1 := Int.odd_iff.mp hodd
    have heven : Even ((2 : ℤ) ^ (n + 1)) := by
      rw [pow_succ]
      exact even_two.mul_left _
    by_cases hpos : 0 < v
    · have hv1 : (1 : ℤ) ≤ v := hpos
      have hodd' : Odd ((2 : ℤ) ^ (n + 1) - v) := Even.sub_odd heven hodd
      have habs' : |(2 : ℤ) ^ (n + 1) - v| ≤ 2 ^ (n + 1) - 1 := by
        rw [abs_le]
        constructor <;> linarith
      obtain ⟨t, htlen, htbin, htval⟩ := pam_gray_surj n (2 ^ (n + 1) - v) hodd' habs'
      obtain ⟨c, t', rfl⟩ : ∃ c t'', t = c :: t'' := by
        cases t with
        | nil => simp at htlen
        | cons c t'' => exact ⟨c, t'', rfl⟩
      refine ⟨0 :: c :: t', by simp only [List.length_cons] at htlen ⊢; omega, ?_, ?_⟩
      · intro x hx
        rcases List.mem_cons.mp hx with h | h
        · exact Or.inl h
        · exact htbin x h
      · simp only [pam_gray]
        rw [htlen, htval]
        ring
    · have hneg : v ≤ -1 := by omega
      have hodd' : Odd (v + (2 : ℤ) ^ (n + 1)) := hodd.add_even heven
      have habs' : |v + (2 : ℤ) ^ (n + 1)| ≤ 2 ^ (n + 1) - 1 := by
        rw [abs_le]
        constructor <;> linarith
      obtain ⟨t, htlen, htbin, htval⟩ := pam_gray_surj n (v + 2 ^ (n + 1)) hodd' habs'
      obtain ⟨c, t', rfl⟩ : ∃ c t'', t = c :: t'' := by
        cases t with
        | nil => simp at htlen
        | cons c t'' => exact ⟨c, t'', rfl⟩
      refine ⟨1 :: c :: t', by simp only [List.length_cons] at htlen ⊢; omega, ?_, ?_⟩
      · intro x hx
        rcases List.mem_cons.mp hx with h | h
        · exact Or.inr h
        · exact htbin x h
      · simp only [pam_gray]
        rw [htlen, htval]
        ring

theorem diffCount_cons (x y : ℤ) (l₁ l₂ : List ℤ) :
    diffCount (x :: l₁) (y :: l₂) = (if x = y then 0 else 1) + diffCount l₁ l₂ := by
  simp [diffCount]

theorem diffCount_self : ∀ (l : List ℤ), diffCount l l = 0
  | [] => rfl
  | x :: t => by simp [diffCount_cons, diffCount_self t]

theorem diffCount_comm : ∀ (l₁ l₂ : List ℤ), diffCount l₁ l₂ = diffCount l₂ l₁
  | [], [] => rfl
  | [], _ :: _ => rfl
  | _ :: _, [] => rfl
  | x :: t₁, y :: t₂ => by
    rw [diffCount_cons, diffCount_cons, diffCount_comm t₁ t₂]
    rcases eq_or_ne x y with h | h
    · simp [h]
    · rw [if_neg h, if_neg (Ne.symm h)]

theorem pam_gray_adjacent : ∀ (l₁ l₂ : List ℤ), isBinary l₁ → isBinary l₂ →
    l₁.length = l₂.length → pam_gray l₂ = pam_gray l₁ + 2 → diffCount l₁ l₂ = 1
  | [], [], _, _, _, heq => by norm_num [pam_gray] at heq
  | [], _ :: _, _, _, hlen, _ => by simp at hlen
  | _ :: _, [], _, _, hlen, _ => by simp at hlen
  | [b], [b'], h1, h2, _, heq => by
    rcases h1 b (by simp) with h | h <;> rcases h2 b' (by simp) with h' | h' <;>
      subst h <;> subst h' <;> norm_num [pam_gray] at heq ⊢
    · rfl
  | [b], b' :: c' :: t', _, _, hlen, _ => by
    simp at hlen
  | b :: c :: t, [b'], _, _, hlen, _ => by
    simp at hlen
  | b :: c :: t, b' :: c' :: t', h1, h2, hlen, heq => by
    have h1t : isBinary (c :: t) := fun x hx => h1 x (by simp [hx])
    have h2t : isBinary (c' :: t') := fun x hx => h2 x (by simp [hx])
    have hL : (c :: t).length = (c' :: t').length := by
      simp only [List.length_cons] at hlen ⊢
      omega
    obtain ⟨_, habs⟩ := pam_gray_bounds (c :: t) (by simp) h1t
    obtain ⟨_, habs'⟩ := pam_gray_bounds (c' :: t') (by simp) h2t
    rw [abs_le] at habs habs'
    have hpow : (0 : ℤ) < 2 ^ (c :: t).length := by positivity
    simp only [pam_gray] at heq
    rw [← hL] at heq habs'
    simp only [List.length_cons] at habs habs' hpow heq
    rcases h1 b (by simp) with h | h <;> rcases h2 b' (by simp) with h' | h' <;>
        subst h <;> subst h'
    · -- heads 0, 0: the tails are adjacent the other way round
      have htails : pam_gray (c :: t) = pam_gray (c' :: t') + 2 := by
        norm_num at heq
        linarith
      have hrec := pam_gray_adjacent (c' :: t') (c :: t) h2t h1t hL.symm htails
      rw [diffCount_cons, if_pos rfl, diffCount_comm (c :: t) (c' :: t'), hrec]
    · -- heads 0, 1: impossible, the value would have to decrease
      exfalso
      norm_num at heq
      linarith
    · -- heads 1, 0: both reduced magnitudes are 1, the tails coincide
      norm_num at heq
      have hM : pam_gray (c :: t) = 2 ^ (t.length + 1) - 1 := by linarith
      have hM' : pam_gray (c' :: t') = 2 ^ (t.length + 1) - 1 := by linarith
      have htails : (c :: t) = (c' :: t') :=
        pam_gray_inj (c :: t) (c' :: t') h1t h2t hL (by rw [hM, hM'])
      rw [diffCount_cons, if_neg (by norm_num), htails, diffCount_self]
    · -- heads 1, 1: the tails are adjacent
      have htails : pam_gray (c' :: t') = pam_gray (c :: t) + 2 := by
        norm_num at heq
        linarith
      have hrec := pam_gray_adjacent (c :: t) (c' :: t') h1t h2t hL htails
      rw [diffCount_cons, if_pos rfl, hrec]
termination_by l₁ _ _ _ _ _ => l₁.length
decreasing_by
  · simp only [List.length_cons] at hlen ⊢
    omega
  · simp only [List.length_cons]
    omega

/-- C6: for every `n ≥ 1` and every bit vector `b` of length `n`, `pam_gray b`
satisfies the recursion `(1-2*b[0]) * (2^(n-1) - pam_gray(b[1:]))` with base
case `1-2*b[0]` for `n = 1`; its image over all `2^n` bit vectors is exactly
the signed odd integers `{-(2^n-1), ..., -1, 1, ..., 2^n-1}`; and bit vectors
mapped to adjacent odd integers (values differing by 2) differ in exactly one
bit. -/
theorem C6_pam_gray_spec (n : ℕ) (hn : 1 ≤ n) :
    (∀ b : List ℤ, b.length = n →
      ((1 < n → pam_gray b = (1 - 2 * b.headD 0) * (2 ^ (n - 1) - pam_gray b.tail)) ∧
       (n = 1 → pam_gray b = 1 - 2 * b.headD 0))) ∧
    (∀ v : ℤ, (∃ b : List ℤ, b.length = n ∧ isBinary b ∧ pam_gray b = v) ↔
      (Odd v ∧ |v| ≤ 2 ^ n - 1)) ∧
    (∀ b₁ b₂ : List ℤ, isBinary b₁ → isBinary b₂ → b₁.length = n → b₂.length = n →
      pam_gray b₂ = pam_gray b₁ + 2 → diffCount b₁ b₂ = 1) := by
  refine ⟨?_, ?_, ?_⟩
  · intro b hb
    rcases b with _ | ⟨x, b2⟩
    · exfalso
      simp at hb
      omega
    rcases b2 with _ | ⟨c, t⟩
    · constructor
      · intro h1
        exfalso
        simp at hb
        omega
      · intro _
        simp [pam_gray]
    · constructor
      · intro _
        have hlen2 : (c :: t).length = n - 1 := by
          simp only [List.length_cons] at hb ⊢
          omega
        rw [← hlen2]
        simp [pam_gray]
      · intro h1
        exfalso
        simp only [List.length_cons] at hb
        omega
  · intro v
    constructor
    · rintro ⟨b, hlen, hbin, rfl⟩
      have hb : b ≠ [] := by
        intro h
        subst h
        simp at hlen
        omega
      obtain ⟨h1, h2⟩ := pam_gray_bounds b hb hbin
      refine ⟨h1, ?_⟩
      rw [← hlen]
      exact h2
    · rintro ⟨hodd, habs⟩
      obtain ⟨l, h1, h2, h3⟩ := pam_gray_surj (n - 1) v hodd (by
        rw [show n - 1 + 1 = n by omega]
        exact habs)
      exact ⟨l, by rw [h1]; omega, h2, h3⟩
  · intro b₁ b₂ hb₁ hb₂ h₁ h₂ heq
    exact pam_gray_adjacent b₁ b₂ hb₁ hb₂ (by rw [h₁, h₂]) heq

/-- Witness for C6 at `n = 1`. -/
theorem C6_pam_gray_spec_witness :
    1 ≤ 1 ∧
    ((∀ b : List ℤ, b.length = 1 →
      ((1 < 1 → pam_gray b = (1 - 2 * b.headD 0) * (2 ^ (1 - 1) - pam_gray b.tail)) ∧
       (1 = 1 → pam_gray b = 1 - 2 * b.headD 0))) ∧
    (∀ v : ℤ, (∃ b : List ℤ, b.length = 1 ∧ isBinary b ∧ pam_gray b = v) ↔
      (Odd v ∧ |v| ≤ 2 ^ 1 - 1)) ∧
    (∀ b₁ b₂ : List ℤ, isBinary b₁ → isBinary b₂ → b₁.length = 1 → b₂.length = 1 →
      pam_gray b₂ = pam_gray b₁ + 2 → diffCount b₁ b₂ = 1)) :=
  ⟨by decide, C6_pam_gray_spec 1 (by decide)⟩

/-! ## C8: the QPSK constellation `qam(2, normalize=True)` -/

theorem qam_var_two : qam_var 2 = 2 := by
  norm_num [qam_var, Finset.sum_range_succ]

theorem abs_div_sqrt_two (z : ℂ) (h : Complex.normSq z = 2) :
    Complex.abs (z / (Real.sqrt 2 : ℂ)) = 1 := by
  rw [map_div₀, Complex.abs_ofReal, abs_of_nonneg (Real.sqrt_nonneg 2),
    Complex.abs_apply, h, div_self]
  exact Real.sqrt_ne_zero'.mpr (by norm_num)

theorem qamPoint_two (i : ℕ) :
    qamPoint 2 true i = ((qamRe 2 i : ℂ) + (qamIm 2 i : ℂ) * Complex.I) /
      (Real.sqrt 2 : ℂ) := by
  simp [qamPoint, qam_var_two]

/-- C8 counterexample: the first point of `qam(2, normalize=True)` has
magnitude 1, not `1/sqrt 2` as the claim states. -/
theorem C8_counterexample :
    Complex.abs (qamPoint 2 true 0) ≠ 1 / Real.sqrt 2 := by
  have h1 : Complex.abs (qamPoint 2 true 0) = 1 := by
    rw [qamPoint_two, show qamRe 2 0 = 1 from by decide,
      show qamIm 2 0 = 1 from by decide]
    apply abs_div_sqrt_two
    simp [Complex.normSq_apply]
    norm_num
  rw [h1]
  have hs : (1 : ℝ) < Real.sqrt 2 := by
    rw [show (1 : ℝ) = Real.sqrt 1 from (Real.sqrt_one).symm]
    exact Real.sqrt_lt_sqrt (by norm_num) (by norm_num)
  have : 1 / Real.sqrt 2 < 1 := by
    rw [div_lt_one (by linarith)]
    exact hs
  exact ne_of_gt this

/-- C8 (amended): `qam(2, normalize=True)` returns exactly 4 points, each of
magnitude 1 (real and imaginary parts `±1/sqrt 2`), at the four QPSK phase
positions `(±1 ± i)/sqrt 2` in bit-label order, with unit mean power. -/
theorem C8_amended :
    (qamPoints 2 true).length = 4 ∧
    qamPoints 2 true =
      [(1 + Complex.I) / (Real.sqrt 2 : ℂ), (1 - Complex.I) / (Real.sqrt 2 : ℂ),
       (-1 + Complex.I) / (Real.sqrt 2 : ℂ), (-1 - Complex.I) / (Real.sqrt 2 : ℂ)] ∧
    (qamPoints 2 true).map Complex.abs = [1, 1, 1, 1] ∧
    ((qamPoints 2 true).map (fun p => Complex.abs p ^ 2)).sum / 4 = 1 := by
  have hrange : List.range (2 ^ 2) = [0, 1, 2, 3] := by decide
  have hlist : qamPoints 2 true =
      [qamPoint 2 true 0, qamPoint 2 true 1, qamPoint 2 true 2, qamPoint 2 true 3] := by
    rw [qamPoints, hrange]
    rfl
  have hp0 : qamPoint 2 true 0 = (1 + Complex.I) / (Real.sqrt 2 : ℂ) := by
    rw [qamPoint_two, show qamRe 2 0 = 1 from by decide,
      show qamIm 2 0 = 1 from by decide]
    push_cast
    ring
  have hp1 : qamPoint 2 true 1 = (1 - Complex.I) / (Real.sqrt 2 : ℂ) := by
    rw [qamPoint_two, show qamRe 2 1 = 1 from by decide,
      show qamIm 2 1 = -1 from by decide]
    push_cast
    ring
  have hp2 : qamPoint 2 true 2 = (-1 + Complex.I) / (Real.sqrt 2 : ℂ) := by
    rw [qamPoint_two, show qamRe 2 2 = -1 from by decide,
      show qamIm 2 2 = 1 from by decide]
    push_cast
    ring
  have hp3 : qamPoint 2 true 3 = (-1 - Complex.I) / (Real.sqrt 2 : ℂ) := by
    rw [qamPoint_two, show qamRe 2 3 = -1 from by decide,
      show qamIm 2 3 = -1 from by decide]
    push_cast
    ring
  have habs : (qamPoints 2 true).map Complex.abs = [1, 1, 1, 1] := by
    rw [hlist, hp0, hp1, hp2, hp3]
    simp only [List.map_cons, List.map_nil]
    congr 1 <;> [skip; congr 1 <;> [skip; congr 1 <;> [skip; congr 1]]]
    · exact abs_div_sqrt_two _ (by simp [Complex.normSq_apply]; norm_num)
    · exact abs_div_sqrt_two _ (by simp [Complex.normSq_apply]; norm_num)
    · exact abs_div_sqrt_two _ (by simp [Complex.normSq_apply]; norm_num)
    · exact abs_div_sqrt_two _ (by simp [Complex.normSq_apply]; norm_num)
  refine ⟨by rw [hlist]; rfl, by rw [hlist, hp0, hp1, hp2, hp3], habs, ?_⟩
  have hcomp : (qamPoints 2 true).map (fun p => Complex.abs p ^ 2) =
      ((qamPoints 2 true).map Complex.abs).map (fun x => x ^ 2) := by
    rw [List.map_map]
    rfl
  rw [hcomp, habs]
  norm_num

/-! ## C9: clamping of the noise variance -/

/-- C9 counterexample: at `y = 0`, a single constellation point `1`, and
`no = 0`, the exponent computed by `SymbolDemapper.call` differs from the
clamped exponent that `Demapper.call` computes (the claim asserts both layers
clamp `no`; `SymbolDemapper` does not). -/
theorem C9_counterexample :
    symbolDemapperExponent [(1 : ℂ)] 0 0 0 ≠ demapperExponent tiny32 [(1 : ℂ)] 0 0 0 := by
  have habs : Complex.abs ((0 : ℂ) - [(1 : ℂ)].getD 0 0) = 1 := by
    norm_num
  have htiny : (0 : ℝ) < tiny32 := by norm_num [tiny32]
  unfold symbolDemapperExponent demapperExponent
  rw [habs, max_eq_right htiny.le]
  norm_num [tiny32]

/-- C9 (amended): `Demapper.call` clamps `no` to `max no tiny` before dividing,
so for `no ≥ 0` the denominator is positive and the division-by-zero branch is
unreachable; `SymbolDemapper.call`, however, divides by `no` directly with no
clamping. -/
theorem C9_amended (tiny : ℝ) (htiny : 0 < tiny) (points : List ℂ) (y : ℂ)
    (no : ℝ) (hno : 0 ≤ no) (j : ℕ) :
    (demapperExponent tiny points y no j =
        -Complex.abs (y - points.getD j 0) ^ 2 / max no tiny ∧
      0 < max no tiny) ∧
    symbolDemapperExponent points y no j =
      -Complex.abs (y - points.getD j 0) ^ 2 / no :=
  ⟨⟨rfl, lt_max_of_lt_right htiny⟩, rfl⟩

/-- Witness for the amended C9 at `tiny = 1`, one point `1`, `y = 0`,
`no = 0`, `j = 0`. -/
theorem C9_amended_witness :
    (0 : ℝ) < 1 ∧ (0 : ℝ) ≤ 0 ∧
    ((demapperExponent 1 [(1 : ℂ)] 0 0 0 =
        -Complex.abs ((0 : ℂ) - [(1 : ℂ)].getD 0 0) ^ 2 / max 0 1 ∧
      (0 : ℝ) < max 0 1) ∧
    symbolDemapperExponent [(1 : ℂ)] 0 0 0 =
      -Complex.abs ((0 : ℂ) - [(1 : ℂ)].getD 0 0) ^ 2 / 0) :=
  ⟨by norm_num, by norm_num, C9_amended 1 (by norm_num) [(1 : ℂ)] 0 0 (by norm_num) 0⟩

/-! ## C7: demapping the 16-QAM point for bits `[0,0,0,0]` -/

theorem foldl_max_init : ∀ (l : List ℝ) (a : ℝ), a ≤ l.foldl max a
  | [], a => le_refl a
  | x :: l, a => le_trans (le_max_left a x) (foldl_max_init l (max a x))

theorem foldl_max_mem : ∀ (l : List ℝ) (a x : ℝ), x ∈ l → x ≤ l.foldl max a
  | [], _, x, h => by simp at h
  | y :: l, a, x, h => by
    rcases List.mem_cons.mp h with h | h
    · subst h
      exact le_trans (le_max_right a x) (foldl_max_init l (max a x))
    · exact foldl_max_mem l (max a y) x h

theorem foldl_max_le : ∀ (l : List ℝ) (a c : ℝ), a ≤ c → (∀ x ∈ l, x ≤ c) →
    l.foldl max a ≤ c
  | [], _, _, ha, _ => ha
  | y :: l, a, c, ha, h =>
    foldl_max_le l (max a y) c (max_le ha (h y (by simp)))
      (fun x hx => h x (by simp [hx]))

theorem le_maxList (l : List ℝ) (x : ℝ) (h : x ∈ l) : x ≤ maxList l := by
  cases l with
  | nil => simp at h
  | cons a t =>
    rcases List.mem_cons.mp h with h | h
    · subst h
      exact foldl_max_init t x
    · exact foldl_max_mem t a x h

theorem maxList_le (l : List ℝ) (c : ℝ) (hne : l ≠ []) (h : ∀ x ∈ l, x ≤ c) :
    maxList l ≤ c := by
  cases l with
  | nil => exact absurd rfl hne
  | cons a t => exact foldl_max_le t a c (h a (by simp)) (fun x hx => h x (by simp [hx]))

theorem exp_neg_three_lt : Real.exp (-3) < 1 / 8 := by
  have h1 : (2.7182818283 : ℝ) < Real.exp 1 := Real.exp_one_gt_d9
  have h8 : (8 : ℝ) < Real.exp 3 := by
    rw [show (3 : ℝ) = 1 + 1 + 1 by norm_num, Real.exp_add, Real.exp_add]
    nlinarith [Real.exp_pos 1]
  rw [Real.exp_neg, show (1 : ℝ) / 8 = 8⁻¹ by norm_num]
  exact inv_strictAnti₀ (by norm_num) h8

/-- If every logit on the one-side is at most `-3` (at most 8 of them) and the
zero-side contains the logit `0` with all logits nonpositive, then the LLR
(one-side reduction minus zero-side reduction) is negative for both methods. -/
theorem reduce_diff_neg (method : DemapMethod) (l1 l0 : List ℝ)
    (h1ne : l1 ≠ []) (h1 : ∀ x ∈ l1, x ≤ -3) (h1len : l1.length ≤ 8)
    (h0mem : (0 : ℝ) ∈ l0) (h0 : ∀ x ∈ l0, x ≤ 0) :
    reduceM method l1 - reduceM method l0 < 0 := by
  cases method with
  | maxlog =>
    have hA : maxList l1 ≤ -3 := maxList_le l1 _ h1ne h1
    have hB : (0 : ℝ) ≤ maxList l0 := le_maxList l0 0 h0mem
    simp only [reduceM]
    linarith
  | app =>
    simp only [reduceM, logsumexp]
    have hS1pos : 0 < (l1.map Real.exp).sum := by
      cases l1 with
      | nil => exact absurd rfl h1ne
      | cons x t =>
        simp only [List.map_cons, List.sum_cons]
        have ht : 0 ≤ (t.map Real.exp).sum := by
          apply List.sum_nonneg
          intro y hy
          obtain ⟨z, _, rfl⟩ := List.mem_map.mp hy
          exact (Real.exp_pos z).le
        linarith [Real.exp_pos x]
    have hS0 : (1 : ℝ) ≤ (l0.map Real.exp).sum := by
      have hmem : Real.exp 0 ∈ l0.map Real.exp := List.mem_map_of_mem _ h0mem
      have hnn : ∀ x ∈ l0.map Real.exp, (0 : ℝ) ≤ x := by
        intro x hx
        obtain ⟨z, _, rfl⟩ := List.mem_map.mp hx
        exact (Real.exp_pos z).le
      have := List.single_le_sum hnn _ hmem
      rwa [Real.exp_zero] at this
    have hS1 : (l1.map Real.exp).sum < 1 := by
      have hle : ∀ x ∈ l1.map Real.exp, x ≤ Real.exp (-3) := by
        intro x hx
        obtain ⟨z, hz, rfl⟩ := List.mem_map.mp hx
        exact Real.exp_le_exp.mpr (h1 z hz)
      have hsum := List.sum_le_card_nsmul _ _ hle
      rw [List.length_map] at hsum
      calc (l1.map Real.exp).sum ≤ l1.length • Real.exp (-3) := hsum
        _ = (l1.length : ℝ) * Real.exp (-3) := nsmul_eq_mul _ _
        _ ≤ 8 * Real.exp (-3) := by
            apply mul_le_mul_of_nonneg_right _ (Real.exp_pos _).le
            exact_mod_cast h1len
        _ < 8 * (1 / 8) := by
            exact mul_lt_mul_of_pos_left exp_neg_three_lt (by norm_num)
        _ = 1 := by norm_num
    have hlog := Real.log_lt_log hS1pos (lt_of_lt_of_le hS1 hS0)
    linarith

theorem qam_var_four : qam_var 4 = 10 := by
  norm_num [qam_var, Finset.sum_range_succ]

theorem qamPoint_four (i : ℕ) :
    qamPoint 4 true i = ((qamRe 4 i : ℂ) + (qamIm 4 i : ℂ) * Complex.I) /
      (Real.sqrt 10 : ℂ) := by
  simp [qamPoint, qam_var_four]

theorem normSq_qam4_sub (i j : ℕ) :
    Complex.normSq (qamPoint 4 true i - qamPoint 4 true j) =
      (((qamRe 4 i - qamRe 4 j : ℤ) : ℝ) ^ 2 +
        ((qamIm 4 i - qamIm 4 j : ℤ) : ℝ) ^ 2) / 10 := by
  rw [qamPoint_four, qamPoint_four, div_sub_div_same, Complex.normSq_div,
    Complex.normSq_ofReal, Real.mul_self_sqrt (by norm_num)]
  congr 1
  push_cast
  simp [Complex.normSq_apply]
  ring

theorem qam4_dist_lb (j : ℕ) (hj : j < 16) (hj0 : j ≠ 0) :
    (2 : ℝ) / 5 ≤ Complex.normSq (qamPoint 4 true 0 - qamPoint 4 true j) := by
  have key : ∀ m : ℕ, m < 16 → m ≠ 0 →
      4 ≤ (qamRe 4 0 - qamRe 4 m) ^ 2 + (qamIm 4 0 - qamIm 4 m) ^ 2 := by decide
  have h := key j hj hj0
  rw [normSq_qam4_sub]
  have h' : (4 : ℝ) ≤ ((qamRe 4 0 - qamRe 4 j : ℤ) : ℝ) ^ 2 +
      ((qamIm 4 0 - qamIm 4 j : ℤ) : ℝ) ^ 2 := by
    exact_mod_cast h
  linarith

theorem qamPoints_getD (K : ℕ) (nm : Bool) (j : ℕ) (hj : j < 2 ^ K) :
    (qamPoints K nm).getD j 0 = qamPoint K nm j := by
  unfold qamPoints
  have h1 : j < ((List.range (2 ^ K)).map (qamPoint K nm)).length := by
    simp [hj]
  rw [List.getD_eq_getElem _ _ h1]
  simp

theorem tiny32_le_no : max (1 / 1000000 : ℝ) tiny32 = 1 / 1000000 := by
  apply max_eq_left
  rw [tiny32]
  rw [div_le_div_iff₀ (by positivity) (by norm_num)]
  norm_num

theorem qam4_exponent_le (j : ℕ) (hj : j < 16) (hj0 : j ≠ 0) :
    demapperExponent tiny32 (qamPoints 4 true) (qamPoint 4 true 0)
      (1 / 1000000) j ≤ -3 := by
  have h16 : (2 : ℕ) ^ 4 = 16 := by norm_num
  unfold demapperExponent
  rw [tiny32_le_no, qamPoints_getD 4 true j (by omega), Complex.sq_abs]
  have hd := qam4_dist_lb j hj hj0
  have hrw : -Complex.normSq (qamPoint 4 true 0 - qamPoint 4 true j) /
      (1 / 1000000 : ℝ) =
      -Complex.normSq (qamPoint 4 true 0 - qamPoint 4 true j) * 1000000 := by
    rw [div_eq_mul_inv]
    norm_num
  rw [hrw]
  linarith

theorem qam4_exponent_nonpos (j : ℕ) :
    demapperExponent tiny32 (qamPoints 4 true) (qamPoint 4 true 0)
      (1 / 1000000) j ≤ 0 := by
  unfold demapperExponent
  rw [neg_div]
  apply neg_nonpos.mpr
  apply div_nonneg (sq_nonneg _)
  rw [tiny32_le_no]
  norm_num

theorem qam4_exponent_zero :
    demapperExponent tiny32 (qamPoints 4 true) (qamPoint 4 true 0)
      (1 / 1000000) 0 = 0 := by
  unfold demapperExponent
  rw [qamPoints_getD 4 true 0 (by norm_num), sub_self]
  simp

/-- C7 counterexample: the point for bits `[0,0,0,0]` (index 0) does not have
the most negative real part: the point at index 15 (bits `[1,1,1,1]`) has a
strictly smaller real part. -/
theorem C7_counterexample :
    (qamPoint 4 true 15).re < (qamPoint 4 true 0).re := by
  have hs : (0 : ℝ) < Real.sqrt 10 := Real.sqrt_pos.mpr (by norm_num)
  rw [qamPoint_four, qamPoint_four, show qamRe 4 15 = -3 from by decide,
    show qamRe 4 0 = 1 from by decide, show qamIm 4 15 = -3 from by decide,
    show qamIm 4 0 = 1 from by decide, Complex.div_ofReal_re, Complex.div_ofReal_re]
  have h1 : (((-3 : ℤ) : ℂ) + ((-3 : ℤ) : ℂ) * Complex.I).re = -3 := by
    simp
  have h2 : (((1 : ℤ) : ℂ) + ((1 : ℤ) : ℂ) * Complex.I).re = 1 := by
    simp
  rw [h1, h2]
  rw [div_lt_div_iff_of_pos_right hs]
  norm_num

/-- C7 (amended): for `K = 4` (16-QAM), the bit group `[0,0,0,0]` is mapped by
`Mapper` to symbol index 0, whose normalized constellation point is
`(1+i)/sqrt 10` (smallest positive real and imaginary parts, not the most
negative ones); feeding exactly that point into `Demapper` with noise variance
`no = 1e-6` and `hard_out` returns the hard bits `[0,0,0,0]` for both
demapping methods. -/
theorem C7_amended :
    intRep 4 [0, 0, 0, 0] = 0 ∧
    qamPoint 4 true 0 = (1 + Complex.I) / (Real.sqrt 10 : ℂ) ∧
    (∀ method : DemapMethod, ∀ k : Fin 4,
      demapperLLR method 4 tiny32 (qamPoints 4 true) true (qamPoint 4 true 0)
        (1 / 1000000) (k : ℕ) = 0) := by
  refine ⟨by decide, ?_, ?_⟩
  · rw [qamPoint_four, show qamRe 4 0 = 1 from by decide,
      show qamIm 4 0 = 1 from by decide]
    push_cast
    ring
  · intro method k
    have hmem1 : ∀ k : Fin 4, ∀ j ∈ c1 4 (k : ℕ), j < 16 ∧ j ≠ 0 := by decide
    have hne1 : ∀ k : Fin 4, c1 4 (k : ℕ) ≠ [] := by decide
    have hlen1 : ∀ k : Fin 4, (c1 4 (k : ℕ)).length ≤ 8 := by decide
    have hmem0 : ∀ k : Fin 4, 0 ∈ c0 4 (k : ℕ) := by decide
    have hdiff : reduceM method ((c1 4 (k : ℕ)).map
          (demapperExponent tiny32 (qamPoints 4 true) (qamPoint 4 true 0)
            (1 / 1000000))) -
        reduceM method ((c0 4 (k : ℕ)).map
          (demapperExponent tiny32 (qamPoints 4 true) (qamPoint 4 true 0)
            (1 / 1000000))) < 0 := by
      apply reduce_diff_neg
      · intro h
        exact hne1 k (List.map_eq_nil_iff.mp h)
      · intro x hx
        obtain ⟨j, hj, rfl⟩ := List.mem_map.mp hx
        obtain ⟨hj16, hj0⟩ := hmem1 k j hj
        exact qam4_exponent_le j hj16 hj0
      · rw [List.length_map]
        exact hlen1 k
      · rw [← qam4_exponent_zero]
        exact List.mem_map_of_mem _ (hmem0 k)
      · intro x hx
        obtain ⟨j, _, rfl⟩ := List.mem_map.mp hx
        exact qam4_exponent_nonpos j
    simp only [demapperLLR, symbolLogits2LLRs]
    rw [if_neg (by decide : ¬((false : Bool) = true)), if_pos trivial]
    unfold hard_decisions
    rw [if_neg (not_le.mpr hdiff)]

end Sionna
